import Mathlib

/-!
Verification development for the volumetric ray-rendering core of
`run_nerf.py` (the NeRF rendering pipeline).

The Python code is shallowly embedded over exact real arithmetic:

* per-ray tensors become `List ℝ` (one entry per depth sample);
* a ray batch becomes a `List RayRec`;
* the learned field (`network_query_fn` composed with the model) is an
  opaque function argument `Vec3 → Option Vec3 → Raw4`, applied pointwise,
  matching `run_network`, which flattens the point grid and applies the
  network row by row;
* the global torch random generator is modelled as an infinite stream
  `rng : ℕ → ℝ` together with a cursor `off : ℕ`; every `torch.rand` /
  `torch.randn` call consumes `numel` consecutive stream values (row-major);
* the numpy generator reseeded by `np.random.seed(0)` in pytest mode is
  modelled by the fixed sequence `npRand`;
* the one place where IEEE special values matter for the claims under
  study — the disparity computation `1.0 / torch.max(1e-10, depth/acc)` —
  is modelled by the small `FVal` type, whose division, maximum and
  reciprocal follow IEEE-754 / torch semantics (`0/0 = NaN`,
  `torch.maximum` propagates NaN, `1/0 = +Inf`).  All arithmetic before
  that point is total over `ℝ` and cannot produce special values.
-/

noncomputable section

open List

/-- Three-component vector (points, directions, colors). -/
abbrev Vec3 := ℝ × ℝ × ℝ

/-- Componentwise addition of 3-vectors. -/
def v3add (a c : Vec3) : Vec3 := (a.1 + c.1, a.2.1 + c.2.1, a.2.2 + c.2.2)

/-- Scalar multiplication of a 3-vector. -/
def v3smul (c : ℝ) (v : Vec3) : Vec3 := (c * v.1, c * v.2.1, c * v.2.2)

/-- Euclidean norm of a 3-vector, as in `torch.norm(rays_d, dim=-1)`. -/
def norm3 (v : Vec3) : ℝ := Real.sqrt (v.1 ^ 2 + v.2.1 ^ 2 + v.2.2 ^ 2)

/-- Rectified linear unit, the density activation `F.relu`. -/
def relu (x : ℝ) : ℝ := max x 0

/-- Logistic sigmoid, the color activation `torch.sigmoid`. -/
def sigmoid (x : ℝ) : ℝ := 1 / (1 + Real.exp (-x))

/-- Raw per-sample field output: three color logits and one density
pre-activation (`raw[..., :3]` and `raw[..., 3]`). -/
structure Raw4 where
  r : ℝ
  g : ℝ
  b : ℝ
  s : ℝ

/-- Float-like value for the disparity computation: models the IEEE-754
special values that `torch` can produce from exact real operands. -/
inductive FVal where
  | nan : FVal
  | inf : FVal
  | ninf : FVal
  | val : ℝ → FVal

/-- Division `x / y` with IEEE semantics on a zero denominator:
`0/0 = NaN`, `x/0 = ±Inf` for `x ≠ 0`. -/
def fdivZ (x y : ℝ) : FVal :=
  if y = 0 then (if x = 0 then FVal.nan else if 0 < x then FVal.inf else FVal.ninf)
  else FVal.val (x / y)

/-- Elementwise maximum with torch semantics: `torch.maximum` returns NaN
whenever either argument is NaN. -/
def fmax : FVal → FVal → FVal
  | FVal.nan, _ => FVal.nan
  | _, FVal.nan => FVal.nan
  | FVal.inf, _ => FVal.inf
  | _, FVal.inf => FVal.inf
  | FVal.ninf, c => c
  | c, FVal.ninf => c
  | FVal.val a, FVal.val c => FVal.val (max a c)

/-- Reciprocal with IEEE semantics: `1/NaN = NaN`, `1/±Inf = 0`,
`1/0 = +Inf`. -/
def finv : FVal → FVal
  | FVal.nan => FVal.nan
  | FVal.inf => FVal.val 0
  | FVal.ninf => FVal.val 0
  | FVal.val x => if x = 0 then FVal.inf else FVal.val (1 / x)

/-! ## Sample Scheduler (coarse stage), from `render_rays` lines 530-552 -/

/-- The interpolation parameters `t_vals = torch.linspace(0., 1., steps=S)`. -/
def tVals (S : ℕ) : List ℝ :=
  (List.range S).map (fun i : ℕ => (i : ℝ) / ((S : ℝ) - 1))

/-- Coarse depth values: `near * (1 - t) + far * t`, or the inverse-depth
variant `1 / (1/near * (1-t) + 1/far * t)` when `lindisp` is set. -/
def zValsBase (lindisp : Bool) (near far : ℝ) (S : ℕ) : List ℝ :=
  if lindisp then (tVals S).map (fun t => 1 / (1 / near * (1 - t) + 1 / far * t))
  else (tVals S).map (fun t => near * (1 - t) + far * t)

/-- Midpoints of adjacent samples: `mids = .5 * (z_vals[...,1:] + z_vals[...,:-1])`. -/
def midsOf (z : List ℝ) : List ℝ :=
  List.zipWith (fun a c => 0.5 * (a + c)) z.tail z

/-- Upper bin bounds: `upper = cat([mids, z_vals[...,-1:]], -1)`. -/
def upperOf (z : List ℝ) : List ℝ := midsOf z ++ z.drop (z.length - 1)

/-- Lower bin bounds: `lower = cat([z_vals[...,:1], mids], -1)`. -/
def lowerOf (z : List ℝ) : List ℝ := z.take 1 ++ midsOf z

/-- Stratified jitter of the coarse samples:
`z_vals = lower + (upper - lower) * t_rand`. -/
def perturbZ (z tr : List ℝ) : List ℝ :=
  List.zipWith3 (fun l u t => l + (u - l) * t) (lowerOf z) (upperOf z) tr

/-! ## Volume Integrator, from `raw2outputs` lines 424-476 -/

/-- Inter-sample distances with the `1e10` sentinel appended, scaled by the
ray direction's norm: `dists = cat([z[1:] - z[:-1], [1e10]]) * norm(rays_d)`. -/
def distsScaled (z : List ℝ) (d : Vec3) : List ℝ :=
  ((List.zipWith (fun a c => a - c) z.tail z) ++ [1e10]).map (fun x => x * norm3 d)

/-- Per-sample opacities `alpha = 1 - exp(-relu(raw_sigma + noise) * dists)`;
`sig` is the list of noisy density pre-activations `raw[...,3] + noise`. -/
def alphasOf (sig : List ℝ) (z : List ℝ) (d : Vec3) : List ℝ :=
  List.zipWith (fun sn dist => 1 - Real.exp (-(relu sn) * dist)) sig (distsScaled z d)

/-- The noisy density pre-activations `raw[..., 3] + noise`. -/
def sigmasOf (raw : List Raw4) (nv : List ℝ) : List ℝ :=
  List.zipWith (fun p x => p.s + x) raw nv

/-- Exclusive cumulative product
`torch.cumprod(cat([ones, l], -1), -1)[:, :-1]`: prefix products of `l`
starting at `1`, dropping the product over the whole list. -/
def exclusiveCumprod (l : List ℝ) : List ℝ :=
  (List.scanl (· * ·) 1 l).dropLast

/-- Per-sample weights
`weights = alpha * cumprod(cat([ones, 1 - alpha + 1e-10], -1), -1)[:, :-1]`. -/
def weightsOfAlphas (al : List ℝ) : List ℝ :=
  List.zipWith (· * ·) al (exclusiveCumprod (al.map (fun a => 1 - a + 1e-10)))

/-- Outputs of the integrator for a single ray. -/
structure PerRayOut where
  rgb : Vec3
  disp : FVal
  acc : ℝ
  ws : List ℝ
  depth : ℝ

/-- The integrator `raw2outputs` for one ray: converts raw predictions plus
depth values into color, disparity, accumulated opacity, weights and depth.
The noise already scaled by `raw_noise_std` is passed in as `nv` (the code
adds the scalar `0.0` when noise is disabled, which is what a zero list
models). -/
def raw2outputs (raw : List Raw4) (z : List ℝ) (d : Vec3) (nv : List ℝ)
    (whiteBkgd : Bool) : PerRayOut :=
  let rgbs := raw.map (fun p => (sigmoid p.r, sigmoid p.g, sigmoid p.b))
  let al := alphasOf (sigmasOf raw nv) z d
  let ws := weightsOfAlphas al
  let rgbMap := (List.zipWith v3smul ws rgbs).foldr v3add (0, 0, 0)
  let depthMap := (List.zipWith (· * ·) ws z).sum
  let accMap := ws.sum
  let dispMap := finv (fmax (FVal.val 1e-10) (fdivZ depthMap accMap))
  { rgb := if whiteBkgd then v3add rgbMap (1 - accMap, 1 - accMap, 1 - accMap) else rgbMap,
    disp := dispMap, acc := accMap, ws := ws, depth := depthMap }

/-! ## Fine stage -/

/-- Merge of coarse and fine depths before the second field query:
`z_vals, _ = torch.sort(torch.cat([z_vals, z_samples], -1), -1)`. -/
def mergedZ (zc zs : List ℝ) : List ℝ :=
  List.insertionSort (· ≤ ·) (zc ++ zs)

/-- Arithmetic mean of a list. -/
def meanList (l : List ℝ) : ℝ := l.sum / l.length

/-- Population standard deviation, `torch.std(..., unbiased=False)`. -/
def stdList (l : List ℝ) : ℝ :=
  Real.sqrt (meanList (l.map (fun x => (x - meanList l) ^ 2)))

/-- Modelled from the spec: `sample_pdf` (the fine-stage inverse-CDF
importance resampler) lives in `run_nerf_helpers.py`, which is not among the
provided sources.  Following the spec's description: normalize the interior
bin weights to a pdf (uniform when the weight sum is nonpositive, to avoid a
division by zero), form the CDF by prefix-summing with a prepended `0`, and
for each drawn value `u` locate the bracketing CDF interval with clamped
indices and linearly interpolate inside the corresponding depth bin, falling
back to the lower bin edge on a zero-width CDF interval.  The drawn values
`u` (evenly spaced in deterministic mode, uniform draws otherwise) are
supplied by the caller. -/
def samplePdf (bins ws : List ℝ) (u : List ℝ) : List ℝ :=
  let pdf : List ℝ :=
    if ws.sum ≤ 0 then ws.map (fun _ => 1 / (ws.length : ℝ))
    else ws.map (fun w => w / ws.sum)
  let cdf : List ℝ := List.scanl (· + ·) 0 pdf
  u.map (fun uv =>
    let idx := min (max ((cdf.filter (fun c => decide (c ≤ uv))).length - 1) 1) (cdf.length - 1)
    let c0 := cdf.getD (idx - 1) 0
    let c1 := cdf.getD idx 0
    let b0 := bins.getD (idx - 1) 0
    let b1 := bins.getD idx 0
    let t := if c1 - c0 ≤ 0 then (0 : ℝ) else (uv - c0) / (c1 - c0)
    b0 + t * (b1 - b0))

/-! ## Ray-Batch Renderer, from `render_rays`, `batchify_rays`, `render` -/

/-- One parsed ray record: origin, direction, bounds, optional unit view
direction (the fields packed into one row of `ray_batch`). -/
structure RayRec where
  o : Vec3
  d : Vec3
  near : ℝ
  far : ℝ
  vdirs : Option Vec3

/-- The rendering configuration threaded through `render_rays` as keyword
arguments. -/
structure NerfCfg where
  nSamples : ℕ
  nImp : ℕ
  perturb : ℝ
  noiseStd : ℝ
  lindisp : Bool
  whiteBkgd : Bool
  pytest : Bool
  retraw : Bool
  network : Vec3 → Option Vec3 → Raw4
  networkFine : Option (Vec3 → Option Vec3 → Raw4)

/-- Everything `render_rays` produces for one ray. When no fine stage runs,
`coarse` coincides with `out` and `zStd` is unused (the corresponding output
keys are simply absent). -/
structure PerRayFull where
  out : PerRayOut
  rawPred : List Raw4
  coarse : PerRayOut
  zStd : ℝ

/-- Point on a ray at depth `zi`: `pts = rays_o + rays_d * z_vals`. -/
def ptAt (ray : RayRec) (zi : ℝ) : Vec3 := v3add ray.o (v3smul zi ray.d)

/-- Density noise for one ray: `randn * raw_noise_std` when the noise std is
positive, the scalar `0` otherwise. -/
def noiseList (std : ℝ) (n : ℕ) (src : ℕ → ℝ) : List ℝ :=
  if 0 < std then (List.range n).map (fun i => src i * std) else List.replicate n 0

/-- Model of the fixed pseudo-random sequence that `np.random.rand` produces
immediately after `np.random.seed(0)`, flattened row-major.  The concrete
numeric values of the generator are irrelevant to every theorem below; all
that matters is that it is one fixed function of the flat position,
independent of any prior generator state. -/
def npRand (n : ℕ) : ℝ := 1 / ((n : ℝ) + 2)

/-- Source of substituted random draws: the fixed reseeded numpy sequence in
pytest mode, the live torch stream otherwise.  `base` is the stream cursor at
the start of the draw, `r` the ray's index inside the chunk, `n` the number
of values per ray and `i` the sample index. -/
def drawSrc (pytest : Bool) (rng : ℕ → ℝ) (base r n i : ℕ) : ℝ :=
  if pytest then npRand (r * n + i) else rng (base + r * n + i)

/-- Map with the index of each element, starting at `i0`. -/
def mapWithIdx (f : ℕ → α → β) : ℕ → List α → List β
  | _, [] => []
  | i, a :: l => f i a :: mapWithIdx f (i + 1) l

/-- The full per-ray pipeline of `render_rays`: coarse sampling (with
optional stratified jitter), coarse integration, and — when `nImp > 0` —
importance resampling, the sorted merge, and fine integration.  The random
sources `jit`, `n1`, `u`, `n2` give the values substituted for the four
potential batch-level draws, already specialised to this ray's rows. -/
def perRayCompute (cfg : NerfCfg) (ray : RayRec) (jit n1 u n2 : ℕ → ℝ) :
    PerRayFull :=
  let S := cfg.nSamples
  let z0 := zValsBase cfg.lindisp ray.near ray.far S
  let z := if 0 < cfg.perturb then perturbZ z0 ((List.range S).map jit) else z0
  let raw1 := z.map (fun zi => cfg.network (ptAt ray zi) ray.vdirs)
  let o1 := raw2outputs raw1 z ray.d (noiseList cfg.noiseStd S n1) cfg.whiteBkgd
  if 0 < cfg.nImp then
    let uVals := if cfg.perturb = 0 then tVals cfg.nImp else (List.range cfg.nImp).map u
    let zs := samplePdf (midsOf z) ((o1.ws.drop 1).dropLast) uVals
    let zf := mergedZ z zs
    let netF := cfg.networkFine.getD cfg.network
    let raw2 := zf.map (fun zi => netF (ptAt ray zi) ray.vdirs)
    let o2 := raw2outputs raw2 zf ray.d (noiseList cfg.noiseStd (S + cfg.nImp) n2) cfg.whiteBkgd
    { out := o2, rawPred := raw2, coarse := o1, zStd := stdList zs }
  else
    { out := o1, rawPred := raw1, coarse := o1, zStd := 0 }

/-- The dictionary returned by `render_rays` / assembled by `batchify_rays`;
optional entries model keys that are present only under `retraw` or a
positive `N_importance`. -/
structure RenderRet where
  rgb : List Vec3
  disp : List FVal
  acc : List ℝ
  depth : List ℝ
  raw : Option (List (List Raw4))
  rgb0 : Option (List Vec3)
  disp0 : Option (List FVal)
  acc0 : Option (List ℝ)
  depth0 : Option (List ℝ)
  zStd : Option (List ℝ)

/-- Concatenation of one per-key result list, `torch.cat(all_ret[k], 0)`:
keys absent on either side stay/become whatever is present. -/
def optAppend : Option (List α) → Option (List α) → Option (List α)
  | some a, some c => some (a ++ c)
  | some a, none => some a
  | none, c => c

/-- Concatenate two chunk results key by key, in order. -/
def appendRet (x y : RenderRet) : RenderRet :=
  { rgb := x.rgb ++ y.rgb, disp := x.disp ++ y.disp, acc := x.acc ++ y.acc,
    depth := x.depth ++ y.depth, raw := optAppend x.raw y.raw,
    rgb0 := optAppend x.rgb0 y.rgb0, disp0 := optAppend x.disp0 y.disp0,
    acc0 := optAppend x.acc0 y.acc0, depth0 := optAppend x.depth0 y.depth0,
    zStd := optAppend x.zStd y.zStd }

/-- The empty accumulator `all_ret = {}` of `batchify_rays`. -/
def emptyRet : RenderRet :=
  { rgb := [], disp := [], acc := [], depth := [], raw := none, rgb0 := none,
    disp0 := none, acc0 := none, depth0 := none, zStd := none }

/-- Assemble the `render_rays` return dictionary from the per-ray results of
one chunk. -/
def assembleRet (cfg : NerfCfg) (l : List PerRayFull) : RenderRet :=
  { rgb := l.map (fun p => p.out.rgb),
    disp := l.map (fun p => p.out.disp),
    acc := l.map (fun p => p.out.acc),
    depth := l.map (fun p => p.out.depth),
    raw := if cfg.retraw then some (l.map (fun p => p.rawPred)) else none,
    rgb0 := if 0 < cfg.nImp then some (l.map (fun p => p.coarse.rgb)) else none,
    disp0 := if 0 < cfg.nImp then some (l.map (fun p => p.coarse.disp)) else none,
    acc0 := if 0 < cfg.nImp then some (l.map (fun p => p.coarse.acc)) else none,
    depth0 := if 0 < cfg.nImp then some (l.map (fun p => p.coarse.depth)) else none,
    zStd := if 0 < cfg.nImp then some (l.map (fun p => p.zStd)) else none }

/-- Number of torch stream values one `render_rays` call on `N` rays
consumes: the stratified jitter, the coarse noise, the non-deterministic
fine draws, and the fine noise (the draws happen even in pytest mode — the
code first calls `torch.rand`/`torch.randn` and only then overwrites the
values from numpy). -/
def consumedCount (cfg : NerfCfg) (N : ℕ) : ℕ :=
  (if 0 < cfg.perturb then N * cfg.nSamples else 0) +
    (if 0 < cfg.noiseStd then N * cfg.nSamples else 0) +
    (if 0 < cfg.nImp ∧ cfg.perturb ≠ 0 then N * cfg.nImp else 0) +
    (if 0 < cfg.nImp ∧ 0 < cfg.noiseStd then N * (cfg.nSamples + cfg.nImp) else 0)

/-- One chunk of `render_rays` on a ray batch: batch-level random draws are
sliced row-major to the rays, the per-ray pipeline runs on every ray, and
the stream cursor advances by the number of consumed values. -/
def renderRays (cfg : NerfCfg) (rays : List RayRec) (rng : ℕ → ℝ) (off : ℕ) :
    RenderRet × ℕ :=
  let N := rays.length
  let S := cfg.nSamples
  let I := cfg.nImp
  let offA := off + (if 0 < cfg.perturb then N * S else 0)
  let offB := offA + (if 0 < cfg.noiseStd then N * S else 0)
  let offC := offB + (if 0 < I ∧ cfg.perturb ≠ 0 then N * I else 0)
  let outs := mapWithIdx
    (fun r ray =>
      perRayCompute cfg ray (drawSrc cfg.pytest rng off r S)
        (drawSrc cfg.pytest rng offA r S) (drawSrc cfg.pytest rng offB r I)
        (drawSrc cfg.pytest rng offC r (S + I))) 0 rays
  (assembleRet cfg outs, off + consumedCount cfg N)

/-- The loop of `batchify_rays` with chunk size `c + 1`: process `c + 1`
rays at a time and concatenate the per-key results in order. -/
def batchifyGo (cfg : NerfCfg) (c : ℕ) (rays : List RayRec) (rng : ℕ → ℝ)
    (off : ℕ) : RenderRet × ℕ :=
  match rays with
  | [] => (emptyRet, off)
  | x :: l =>
    let p := renderRays cfg ((x :: l).take (c + 1)) rng off
    let q := batchifyGo cfg c ((x :: l).drop (c + 1)) rng p.2
    (appendRet p.1 q.1, q.2)
termination_by rays.length
decreasing_by simp [List.length_drop]; omega

/-- The chunking wrapper `batchify_rays(rays_flat, chunk, ...)`.  A chunk
size of `0` makes Python's `range(0, N, 0)` raise before doing anything, so
it returns the empty accumulator here; every claim assumes a positive chunk
size. -/
def batchifyRays (cfg : NerfCfg) (chunk : ℕ) (rays : List RayRec)
    (rng : ℕ → ℝ) (off : ℕ) : RenderRet × ℕ :=
  match chunk with
  | 0 => (emptyRet, off)
  | c + 1 => batchifyGo cfg c rays rng off

/-- The flat-batch path of `render(...)`: run `batchify_rays` over the
already-built ray records and return the result dictionary. -/
def render (cfg : NerfCfg) (chunk : ℕ) (rays : List RayRec) (rng : ℕ → ℝ)
    (off : ℕ) : RenderRet :=
  (batchifyRays cfg chunk rays rng off).1

/-! ## Input parsing of `render_rays`, lines 524-536

A `ray_batch` row is a width-`D` record.  The code performs no explicit
validation of `D`; the only operations that can raise are the bounds
reshape `torch.reshape(ray_batch[..., 6:8], [-1, 1, 2])` (which needs an
even element count) and the broadcast `z_vals.expand([N_rays, N_samples])`
(which needs the bounds row count to be `N_rays` or `1`). -/

/-- Parse a raw `ray_batch` (a list of width-`D` rows) and run the coarse
depth sampling, mirroring `render_rays` up to line 536.  Returns the per-ray
depth values and the optional view directions, or the shape error torch
would raise. -/
def parseAndSample (rows : List (List ℝ)) (S : ℕ) :
    Except String (List (List ℝ) × Option (List (List ℝ))) :=
  let N := rows.length
  let D := (rows.headD []).length
  let vd := if 8 < D then some (rows.map (fun row => row.drop (D - 3))) else none
  let boundsFlat := rows.flatMap (fun row => (row.drop 6).take 2)
  if boundsFlat.length % 2 ≠ 0 then Except.error ("cannot reshape bounds tensor")
  else
    let M := boundsFlat.length / 2
    if M = N ∨ M = 1 then
      let nf := (List.range M).map
        (fun k => (boundsFlat.getD (2 * k) 0, boundsFlat.getD (2 * k + 1) 0))
      let nfx := if M = 1 then List.replicate N (nf.headD (0, 0)) else nf
      Except.ok (nfx.map (fun p => zValsBase false p.1 p.2 S), vd)
    else Except.error ("cannot broadcast z values to the ray batch")

/-- The per-ray pipeline in the deterministic configuration: with no jitter
and no noise the random sources are irrelevant, so the zero sources serve as
the canonical choice. -/
def detPerRay (cfg : NerfCfg) (ray : RayRec) : PerRayFull :=
  perRayCompute cfg ray (fun _ => 0) (fun _ => 0) (fun _ => 0) (fun _ => 0)

/-- A concrete point-to-raw network for the concrete instances below: the
raw red channel is the x coordinate of the queried point, the density
pre-activation is 0. -/
def netCE : Vec3 → Option Vec3 → Raw4 := fun p _ => ⟨p.1, 0, 0, 0⟩

/-- Concrete training-style configuration: stratified jitter and density
noise enabled, raw predictions returned. -/
def cfgCE : NerfCfg :=
  { nSamples := 2, nImp := 0, perturb := 1, noiseStd := 1, lindisp := false,
    whiteBkgd := false, pytest := false, retraw := true, network := netCE,
    networkFine := none }

/-- Concrete deterministic (evaluation-style) configuration: no jitter, no
noise. -/
def cfgDet : NerfCfg :=
  { nSamples := 2, nImp := 0, perturb := 0, noiseStd := 0, lindisp := false,
    whiteBkgd := false, pytest := false, retraw := false, network := netCE,
    networkFine := none }

/-- Concrete pytest-mode configuration with jitter and noise enabled. -/
def cfgPT : NerfCfg :=
  { nSamples := 2, nImp := 0, perturb := 1, noiseStd := 1, lindisp := false,
    whiteBkgd := false, pytest := true, retraw := true, network := netCE,
    networkFine := none }

/-- Concrete ray from the origin along x with bounds `[0, 1]`. -/
def rayCE : RayRec :=
  { o := (0, 0, 0), d := (1, 0, 0), near := 0, far := 1, vdirs := none }

/-- Concrete live random stream: the value at position `n` is `n`. -/
def rngCE : ℕ → ℝ := fun n => (n : ℝ)

/-! ## Basic list access lemmas -/

/-- Access through `getD` agrees with `getElem` inside the bounds. -/
theorem getD_lt {α : Type _} (l : List α) (i : ℕ) (d : α) (h : i < l.length) :
    l.getD i d = l[i] := by
  simp [List.getD_eq_getElem?_getD, List.getElem?_eq_getElem h]

theorem getD_map_lt (f : ℝ → ℝ) (l : List ℝ) (i : ℕ) (h : i < l.length) :
    (l.map f).getD i 0 = f (l.getD i 0) := by
  rw [getD_lt _ _ _ (by simpa using h), getD_lt _ _ _ h, List.getElem_map]

/-! ## Cumulative-product lemmas for the integrator weights -/

theorem scanl_mul_one (l : List ℝ) (c : ℝ) :
    List.scanl (· * ·) c l = (List.scanl (· * ·) 1 l).map (fun x => c * x) := by
  induction l generalizing c with
  | nil => simp
  | cons x xs ih =>
    rw [List.scanl_cons, List.scanl_cons, ih (c * x), ih (1 * x), List.map_append,
      List.map_map]
    simp only [one_mul, List.singleton_append, List.map_cons, mul_one]
    congr 1
    apply List.map_congr_left
    intro y _
    simp [Function.comp, mul_assoc]

theorem scanl_one_ne_nil (l : List ℝ) : List.scanl (· * ·) (1 : ℝ) l ≠ [] := by
  cases l <;> simp [List.scanl_cons]

theorem exclusiveCumprod_nil : exclusiveCumprod [] = [] := by
  simp [exclusiveCumprod]

theorem exclusiveCumprod_cons (x : ℝ) (l : List ℝ) :
    exclusiveCumprod (x :: l) = 1 :: (exclusiveCumprod l).map (fun y => x * y) := by
  unfold exclusiveCumprod
  rw [List.scanl_cons, scanl_mul_one l (1 * x), List.singleton_append,
    List.dropLast_cons_of_ne_nil (by simpa using scanl_one_ne_nil l),
    List.map_dropLast]
  simp [one_mul]

theorem exclusiveCumprod_length (l : List ℝ) :
    (exclusiveCumprod l).length = l.length := by
  simp [exclusiveCumprod, List.length_scanl]

theorem zipWith_mul_map_left (c : ℝ) :
    ∀ l e : List ℝ,
      List.zipWith (· * ·) l (e.map (fun y => c * y)) =
        (List.zipWith (· * ·) l e).map (fun y => c * y)
  | [], _ => by simp
  | _ :: _, [] => by simp
  | x :: l, y :: e => by
    simp only [List.map_cons, List.zipWith_cons_cons, zipWith_mul_map_left c l e]
    congr 1
    ring

theorem weightsOfAlphas_nil : weightsOfAlphas [] = [] := by
  simp [weightsOfAlphas]

theorem weightsOfAlphas_cons (a : ℝ) (l : List ℝ) :
    weightsOfAlphas (a :: l) =
      a :: (weightsOfAlphas l).map (fun w => (1 - a + 1e-10) * w) := by
  unfold weightsOfAlphas
  rw [List.map_cons, exclusiveCumprod_cons, List.zipWith_cons_cons,
    zipWith_mul_map_left]
  simp

theorem weightsOfAlphas_length (l : List ℝ) :
    (weightsOfAlphas l).length = l.length := by
  simp [weightsOfAlphas, exclusiveCumprod, List.length_scanl]

theorem weightsOfAlphas_getD (l : List ℝ) :
    ∀ i, i < l.length →
      (weightsOfAlphas l).getD i 0 =
        l.getD i 0 * ((l.take i).map (fun a => 1 - a + 1e-10)).prod := by
  induction l with
  | nil => intro i hi; simp at hi
  | cons a t ih =>
    intro i hi
    cases i with
    | zero => simp [weightsOfAlphas_cons]
    | succ j =>
      have hj : j < t.length := by simpa using hi
      rw [weightsOfAlphas_cons]
      simp only [List.getD_cons_succ, List.take_succ_cons, List.map_cons,
        List.prod_cons]
      rw [getD_map_lt _ _ _ (by simpa [weightsOfAlphas_length] using hj), ih j hj]
      ring

theorem sum_map_mul (c : ℝ) (l : List ℝ) :
    (l.map (fun y => c * y)).sum = c * l.sum := by
  induction l with
  | nil => simp
  | cons x t ih => simp [ih]; ring

theorem prod_nonneg_of_mem (l : List ℝ) (h : ∀ x ∈ l, 0 ≤ x) : 0 ≤ l.prod := by
  induction l with
  | nil => simp
  | cons x t ih =>
    rw [List.prod_cons]
    exact mul_nonneg (h x (List.mem_cons_self x t))
      (ih fun y hy => h y (List.mem_cons_of_mem x hy))

theorem weightsOfAlphas_nonneg (l : List ℝ) (h : ∀ a ∈ l, 0 ≤ a ∧ a ≤ 1) :
    ∀ w ∈ weightsOfAlphas l, 0 ≤ w := by
  induction l with
  | nil => simp [weightsOfAlphas_nil]
  | cons a t ih =>
    intro w hw
    rw [weightsOfAlphas_cons] at hw
    rcases List.mem_cons.mp hw with rfl | hw2
    · exact (h w (List.mem_cons_self w t)).1
    · obtain ⟨y, hy, rfl⟩ := List.mem_map.mp hw2
      have ha := h a (List.mem_cons_self a t)
      have hy0 := ih (fun x hx => h x (List.mem_cons_of_mem a hx)) y hy
      have hf : (0 : ℝ) ≤ 1 - a + 1e-10 := by linarith [ha.2]
      exact mul_nonneg hf hy0

theorem weightsOfAlphas_sum_le (l : List ℝ) (h : ∀ a ∈ l, 0 ≤ a ∧ a ≤ 1) :
    (weightsOfAlphas l).sum ≤
      (1 + 1e-10) ^ l.length - (l.map (fun a => 1 - a + 1e-10)).prod := by
  induction l with
  | nil => simp [weightsOfAlphas_nil]
  | cons a t ih =>
    have ha := h a (List.mem_cons_self a t)
    have ht : ∀ x ∈ t, 0 ≤ x ∧ x ≤ 1 := fun x hx => h x (List.mem_cons_of_mem a hx)
    have hf : (0 : ℝ) ≤ 1 - a + 1e-10 := by linarith [ha.2]
    have hpow : (1 : ℝ) ≤ (1 + 1e-10) ^ t.length := by
      calc (1 : ℝ) = 1 ^ t.length := (one_pow _).symm
        _ ≤ (1 + 1e-10) ^ t.length := pow_le_pow_left₀ (by norm_num) (by norm_num) _
    have hih := ih ht
    rw [weightsOfAlphas_cons, List.sum_cons, sum_map_mul, List.length_cons,
      List.map_cons, List.prod_cons, pow_succ]
    have h1 : (1 - a + 1e-10) * (weightsOfAlphas t).sum ≤
        (1 - a + 1e-10) * ((1 + 1e-10) ^ t.length - (t.map (fun a => 1 - a + 1e-10)).prod) :=
      mul_le_mul_of_nonneg_left hih hf
    nlinarith [mul_nonneg ha.1 (sub_nonneg.mpr hpow)]

/-! ## Distance and opacity lemmas -/

theorem distsScaled_length (z : List ℝ) (d : Vec3) (hz : z ≠ []) :
    (distsScaled z d).length = z.length := by
  have : z.length ≠ 0 := by simpa [List.length_eq_zero] using hz
  simp [distsScaled, List.length_zipWith, List.length_tail]
  omega

theorem distsScaled_getD_lt (z : List ℝ) (d : Vec3) (i : ℕ)
    (h : i + 1 < z.length) :
    (distsScaled z d).getD i 0 = (z.getD (i + 1) 0 - z.getD i 0) * norm3 d := by
  have hz : z ≠ [] := by intro e; subst e; simp at h
  have hlen := distsScaled_length z d hz
  have hzw : i < (List.zipWith (fun a c => a - c) z.tail z).length := by
    simp [List.length_zipWith, List.length_tail]; omega
  rw [getD_lt _ _ _ (by omega), getD_lt _ _ _ h, getD_lt _ _ _ (by omega)]
  unfold distsScaled
  rw [List.getElem_map, List.getElem_append_left hzw, List.getElem_zipWith,
    List.getElem_tail]

theorem distsScaled_getD_last (z : List ℝ) (d : Vec3) (hz : z ≠ []) :
    (distsScaled z d).getD (z.length - 1) 0 = 1e10 * norm3 d := by
  have hlen := distsScaled_length z d hz
  have hn : z.length ≠ 0 := by simpa [List.length_eq_zero] using hz
  have hzw : (List.zipWith (fun a c => a - c) z.tail z).length = z.length - 1 := by
    simp [List.length_zipWith, List.length_tail]
  rw [getD_lt _ _ _ (by omega)]
  unfold distsScaled
  rw [List.getElem_map, List.getElem_append_right (by omega)]
  simp [hzw]

theorem distsScaled_nonneg (z : List ℝ) (d : Vec3) (hz : z.Sorted (· ≤ ·)) :
    ∀ x ∈ distsScaled z d, 0 ≤ x := by
  intro x hx
  unfold distsScaled at hx
  obtain ⟨y, hy, rfl⟩ := List.mem_map.mp hx
  refine mul_nonneg ?_ (by unfold norm3; exact Real.sqrt_nonneg _)
  rcases List.mem_append.mp hy with h1 | h2
  · rw [List.mem_iff_getElem] at h1
    obtain ⟨i, hi, rfl⟩ := h1
    have hi2 : i + 1 < z.length := by
      have := List.lt_length_left_of_zipWith hi
      simp [List.length_tail] at this
      omega
    rw [List.getElem_zipWith, List.getElem_tail]
    have hle : z.get ⟨i, by omega⟩ ≤ z.get ⟨i + 1, hi2⟩ :=
      hz.rel_get_of_lt (Fin.mk_lt_mk.mpr (by omega))
    simp only [List.get_eq_getElem] at hle
    linarith
  · rw [List.mem_singleton] at h2
    subst h2
    norm_num

theorem alphasOf_getD (sig z : List ℝ) (d : Vec3) (i : ℕ)
    (h : i < (alphasOf sig z d).length) :
    (alphasOf sig z d).getD i 0 =
      1 - Real.exp (-(relu (sig.getD i 0)) * (distsScaled z d).getD i 0) := by
  have h1 : i < sig.length := List.lt_length_left_of_zipWith h
  have h2 : i < (distsScaled z d).length := List.lt_length_right_of_zipWith h
  rw [getD_lt _ _ _ h, getD_lt _ _ _ h1, getD_lt _ _ _ h2]
  unfold alphasOf
  rw [List.getElem_zipWith]

theorem alphasOf_bounds (sig z : List ℝ) (d : Vec3) (hz : z.Sorted (· ≤ ·)) :
    ∀ a ∈ alphasOf sig z d, 0 ≤ a ∧ a ≤ 1 := by
  intro a ha
  rw [List.mem_iff_getElem] at ha
  obtain ⟨i, hi, rfl⟩ := ha
  have h1 : i < sig.length := List.lt_length_left_of_zipWith hi
  have h2 : i < (distsScaled z d).length := List.lt_length_right_of_zipWith hi
  unfold alphasOf at hi ⊢
  rw [List.getElem_zipWith]
  have hd0 : 0 ≤ (distsScaled z d)[i] :=
    distsScaled_nonneg z d hz _ (List.getElem_mem _)
  have hr : 0 ≤ relu (sig[i]) := le_max_right _ 0
  constructor
  · have harg : -(relu (sig[i])) * (distsScaled z d)[i] ≤ 0 := by nlinarith
    have := Real.exp_le_one_iff.mpr harg
    linarith
  · have := (Real.exp_pos (-(relu (sig[i])) * (distsScaled z d)[i])).le
    linarith

/-! ## Claim C2: the Volume Integrator weight formula -/

/-- C2.  Volume Integrator weight formula: in every `raw2outputs` call, the
per-sample opacity equals `1 - exp(-relu(raw_sigma + noise) * dist)`, where
`dist i = z (i+1) - z i` for interior samples, the constant `1e10` is
appended as the last distance, and all distances are scaled by the norm of
the ray direction; and the per-sample weight is
`alpha i * prod_(j < i) (1 - alpha j + 1e-10)`, the exclusive cumulative
product starting at `1`, with the epsilon `1e-10` added inside the product
term, not to alpha itself. -/
theorem c2_integrator_weight_formula (raw : List Raw4) (z : List ℝ) (d : Vec3)
    (nv : List ℝ) (wb : Bool) :
    (∀ i, i + 1 < z.length →
      (distsScaled z d).getD i 0 = (z.getD (i + 1) 0 - z.getD i 0) * norm3 d) ∧
    (z ≠ [] → (distsScaled z d).getD (z.length - 1) 0 = 1e10 * norm3 d) ∧
    (∀ i, i < (alphasOf (sigmasOf raw nv) z d).length →
      (alphasOf (sigmasOf raw nv) z d).getD i 0 =
        1 - Real.exp (-(relu ((sigmasOf raw nv).getD i 0)) *
          (distsScaled z d).getD i 0)) ∧
    (∀ i, i < (alphasOf (sigmasOf raw nv) z d).length →
      (raw2outputs raw z d nv wb).ws.getD i 0 =
        (alphasOf (sigmasOf raw nv) z d).getD i 0 *
          (((alphasOf (sigmasOf raw nv) z d).take i).map
            (fun a => 1 - a + 1e-10)).prod) := by
  refine ⟨fun i hi => distsScaled_getD_lt z d i hi,
    fun hz => distsScaled_getD_last z d hz,
    fun i hi => alphasOf_getD _ z d i hi, fun i hi => ?_⟩
  have hws : (raw2outputs raw z d nv wb).ws =
      weightsOfAlphas (alphasOf (sigmasOf raw nv) z d) := rfl
  rw [hws, weightsOfAlphas_getD _ i hi]

/-- Witness for C2 at a concrete input: two samples with densities 2 and 3 at
depths 0 and 1 along the unit direction `(1,0,0)`. -/
theorem c2_integrator_weight_formula_witness :
    ((0 : ℕ) + 1 < ([0, 1] : List ℝ).length ∧
      (distsScaled [0, 1] (1, 0, 0)).getD 0 0 =
        (([0, 1] : List ℝ).getD 1 0 - ([0, 1] : List ℝ).getD 0 0) * norm3 (1, 0, 0)) ∧
    (([0, 1] : List ℝ) ≠ [] ∧
      (distsScaled [0, 1] (1, 0, 0)).getD (([0, 1] : List ℝ).length - 1) 0 =
        1e10 * norm3 (1, 0, 0)) ∧
    ((1 : ℕ) <
        (alphasOf (sigmasOf [⟨0, 0, 0, 2⟩, ⟨0, 0, 0, 3⟩] [0, 0]) [0, 1] (1, 0, 0)).length ∧
      (alphasOf (sigmasOf [⟨0, 0, 0, 2⟩, ⟨0, 0, 0, 3⟩] [0, 0]) [0, 1] (1, 0, 0)).getD 1 0 =
        1 - Real.exp (-(relu ((sigmasOf [⟨0, 0, 0, 2⟩, ⟨0, 0, 0, 3⟩] [0, 0]).getD 1 0)) *
          (distsScaled [0, 1] (1, 0, 0)).getD 1 0)) ∧
    (raw2outputs [⟨0, 0, 0, 2⟩, ⟨0, 0, 0, 3⟩] [0, 1] (1, 0, 0) [0, 0] false).ws.getD 1 0 =
      (alphasOf (sigmasOf [⟨0, 0, 0, 2⟩, ⟨0, 0, 0, 3⟩] [0, 0]) [0, 1] (1, 0, 0)).getD 1 0 *
        (((alphasOf (sigmasOf [⟨0, 0, 0, 2⟩, ⟨0, 0, 0, 3⟩] [0, 0]) [0, 1] (1, 0, 0)).take 1).map
          (fun a => 1 - a + 1e-10)).prod := by
  have h1 : (1 : ℕ) <
      (alphasOf (sigmasOf [⟨0, 0, 0, 2⟩, ⟨0, 0, 0, 3⟩] [0, 0]) [0, 1] (1, 0, 0)).length := by
    simp [alphasOf, sigmasOf, distsScaled, List.length_zipWith]
  exact ⟨⟨by norm_num,
      (c2_integrator_weight_formula [⟨0, 0, 0, 2⟩, ⟨0, 0, 0, 3⟩] [0, 1] (1, 0, 0) [0, 0]
        false).1 0 (by norm_num)⟩,
    ⟨by simp,
      (c2_integrator_weight_formula [⟨0, 0, 0, 2⟩, ⟨0, 0, 0, 3⟩] [0, 1] (1, 0, 0) [0, 0]
        false).2.1 (by simp)⟩,
    ⟨h1,
      (c2_integrator_weight_formula [⟨0, 0, 0, 2⟩, ⟨0, 0, 0, 3⟩] [0, 1] (1, 0, 0) [0, 0]
        false).2.2.1 1 h1⟩,
    (c2_integrator_weight_formula [⟨0, 0, 0, 2⟩, ⟨0, 0, 0, 3⟩] [0, 1] (1, 0, 0) [0, 0]
      false).2.2.2 1 h1⟩

/-! ## Claim C3: weight bounds -/

/-- C3 (amended).  Weight bound invariant: in every `raw2outputs` call on a
sorted depth list, every weight is nonnegative, and the per-ray weight sum
(`acc_map`) is at most `(1 + 1e-10) ^ N` for `N` samples.  (The originally
claimed bound `1 + 1e-10` is exceeded — by an amount on the order of
`1e-20` — once three or more samples are nearly opaque; see the
counterexample theorem.) -/
theorem c3_weight_bounds (raw : List Raw4) (z : List ℝ) (d : Vec3)
    (nv : List ℝ) (wb : Bool) (hz : z.Sorted (· ≤ ·)) :
    (∀ w ∈ (raw2outputs raw z d nv wb).ws, 0 ≤ w) ∧
    (raw2outputs raw z d nv wb).acc ≤
      (1 + 1e-10) ^ (raw2outputs raw z d nv wb).ws.length := by
  have hb : ∀ a ∈ alphasOf (sigmasOf raw nv) z d, 0 ≤ a ∧ a ≤ 1 :=
    alphasOf_bounds _ z d hz
  have hws : (raw2outputs raw z d nv wb).ws =
      weightsOfAlphas (alphasOf (sigmasOf raw nv) z d) := rfl
  have hacc : (raw2outputs raw z d nv wb).acc =
      (weightsOfAlphas (alphasOf (sigmasOf raw nv) z d)).sum := rfl
  constructor
  · intro w hw
    exact weightsOfAlphas_nonneg _ hb w (hws ▸ hw)
  · rw [hacc, hws, weightsOfAlphas_length]
    have hprod : 0 ≤ ((alphasOf (sigmasOf raw nv) z d).map
        (fun a => 1 - a + 1e-10)).prod := by
      apply prod_nonneg_of_mem
      intro x hx
      obtain ⟨y, hy, rfl⟩ := List.mem_map.mp hx
      have := (hb y hy).2
      linarith
    have := weightsOfAlphas_sum_le (alphasOf (sigmasOf raw nv) z d) hb
    linarith

/-- Witness for C3 at a concrete input: two unit-density samples at sorted
depths 0 and 1. -/
theorem c3_weight_bounds_witness :
    ([0, 1] : List ℝ).Sorted (· ≤ ·) ∧
    (∀ w ∈ (raw2outputs [⟨0, 0, 0, 1⟩, ⟨0, 0, 0, 1⟩] [0, 1] (1, 0, 0) [0, 0] false).ws,
      0 ≤ w) ∧
    (raw2outputs [⟨0, 0, 0, 1⟩, ⟨0, 0, 0, 1⟩] [0, 1] (1, 0, 0) [0, 0] false).acc ≤
      (1 + 1e-10) ^
        (raw2outputs [⟨0, 0, 0, 1⟩, ⟨0, 0, 0, 1⟩] [0, 1] (1, 0, 0) [0, 0] false).ws.length := by
  have hs : ([0, 1] : List ℝ).Sorted (· ≤ ·) := by
    simp [List.sorted_cons]
  have := c3_weight_bounds [⟨0, 0, 0, 1⟩, ⟨0, 0, 0, 1⟩] [0, 1] (1, 0, 0) [0, 0] false hs
  exact ⟨hs, this.1, this.2⟩

theorem exp_neg_thirty_le : Real.exp (-(30 : ℝ)) ≤ 1e-12 := by
  have h30 : Real.exp (30 : ℝ) = Real.exp 1 ^ (30 : ℕ) := by
    rw [← Real.exp_nat_mul]
    norm_num
  have h2 : (1e12 : ℝ) ≤ Real.exp 30 := by
    rw [h30]
    calc (1e12 : ℝ) ≤ 2.7182818283 ^ (30 : ℕ) := by norm_num
      _ ≤ Real.exp 1 ^ (30 : ℕ) :=
        pow_le_pow_left₀ (by norm_num) Real.exp_one_gt_d9.le _
  rw [Real.exp_neg]
  calc (Real.exp 30)⁻¹ ≤ (1e12 : ℝ)⁻¹ := by
        apply inv_anti₀ (by norm_num) h2
    _ = 1e-12 := by norm_num

theorem norm3_unit_x : norm3 (1, 0, 0) = 1 := by
  have h : ((1 : ℝ)) ^ 2 + (0 : ℝ) ^ 2 + (0 : ℝ) ^ 2 = 1 := by norm_num
  rw [norm3]
  simp only [h, Real.sqrt_one]

theorem weights3_sum (x y : ℝ) :
    (weightsOfAlphas [1 - x, 1 - x, 1 - y]).sum =
      1 + 1e-10 + (x * 1e-10 + 1e-20 - y * ((x + 1e-10) * (x + 1e-10))) := by
  simp [weightsOfAlphas, exclusiveCumprod, List.scanl]
  ring

/-- Counterexample to C3 as stated: with three nearly opaque samples
(density pre-activation 30 at sorted depths 0, 1, 2 along a unit direction)
the weight sum strictly exceeds `1 + 1e-10` in exact arithmetic, because
every factor of the exclusive cumulative product is `1 - alpha + 1e-10` and
the `1e-10` contributions of later samples accumulate. -/
theorem c3_weight_sum_counterexample :
    1 + 1e-10 <
      (raw2outputs [⟨0, 0, 0, 30⟩, ⟨0, 0, 0, 30⟩, ⟨0, 0, 0, 30⟩] [0, 1, 2] (1, 0, 0)
        [0, 0, 0] false).acc := by
  have hsig : sigmasOf [⟨0, 0, 0, 30⟩, ⟨0, 0, 0, 30⟩, ⟨0, 0, 0, 30⟩] [0, 0, 0] =
      [30, 30, 30] := by
    norm_num [sigmasOf]
  have hdists : distsScaled [0, 1, 2] (1, 0, 0) = [1, 1, 1e10] := by
    rw [distsScaled, norm3_unit_x]
    norm_num
  have halist : alphasOf [30, 30, 30] [0, 1, 2] (1, 0, 0) =
      [1 - Real.exp (-(30 : ℝ)), 1 - Real.exp (-(30 : ℝ)),
        1 - Real.exp (-((30 : ℝ) * 1e10))] := by
    rw [alphasOf, hdists]
    norm_num [relu, max_def]
  have hacc : (raw2outputs [⟨0, 0, 0, 30⟩, ⟨0, 0, 0, 30⟩, ⟨0, 0, 0, 30⟩] [0, 1, 2]
      (1, 0, 0) [0, 0, 0] false).acc =
      (weightsOfAlphas (alphasOf
        (sigmasOf [⟨0, 0, 0, 30⟩, ⟨0, 0, 0, 30⟩, ⟨0, 0, 0, 30⟩] [0, 0, 0])
        [0, 1, 2] (1, 0, 0))).sum := rfl
  rw [hacc, hsig, halist, weights3_sum]
  have hx0 : 0 < Real.exp (-(30 : ℝ)) := Real.exp_pos _
  have hx : Real.exp (-(30 : ℝ)) ≤ 1e-12 := exp_neg_thirty_le
  have hy0 : 0 < Real.exp (-((30 : ℝ) * 1e10)) := Real.exp_pos _
  have hyx : Real.exp (-((30 : ℝ) * 1e10)) ≤ Real.exp (-(30 : ℝ)) :=
    Real.exp_le_exp.mpr (by norm_num)
  have key : Real.exp (-((30 : ℝ) * 1e10)) *
      ((Real.exp (-(30 : ℝ)) + 1e-10) * (Real.exp (-(30 : ℝ)) + 1e-10)) ≤
      1e-12 * ((1e-12 + 1e-10) * (1e-12 + 1e-10)) := by
    have hxe : Real.exp (-(30 : ℝ)) + 1e-10 ≤ 1e-12 + 1e-10 := by linarith
    have hy12 : Real.exp (-((30 : ℝ) * 1e10)) ≤ 1e-12 := le_trans hyx hx
    have hsq : (Real.exp (-(30 : ℝ)) + 1e-10) * (Real.exp (-(30 : ℝ)) + 1e-10) ≤
        ((1e-12 : ℝ) + 1e-10) * (1e-12 + 1e-10) :=
      mul_self_le_mul_self (by linarith) hxe
    have hsq0 : (0 : ℝ) ≤
        (Real.exp (-(30 : ℝ)) + 1e-10) * (Real.exp (-(30 : ℝ)) + 1e-10) :=
      mul_self_nonneg _
    calc Real.exp (-((30 : ℝ) * 1e10)) *
          ((Real.exp (-(30 : ℝ)) + 1e-10) * (Real.exp (-(30 : ℝ)) + 1e-10)) ≤
        1e-12 * ((Real.exp (-(30 : ℝ)) + 1e-10) * (Real.exp (-(30 : ℝ)) + 1e-10)) :=
          mul_le_mul_of_nonneg_right hy12 hsq0
      _ ≤ 1e-12 * ((1e-12 + 1e-10) * (1e-12 + 1e-10)) :=
          mul_le_mul_of_nonneg_left hsq (by norm_num)
  nlinarith [key, mul_nonneg hx0.le (show (0 : ℝ) ≤ 1e-10 by norm_num)]

/-! ## Claim C4: disparity on an all-zero-density ray -/

/-- C4 (code bug).  Degenerate ray evaluation: one sample with raw density
`0` (which `relu` activates to zero) gives `acc_map = 0` as the claim says,
but `disp_map` is NaN, not a finite value: the code divides `depth/acc`
before applying the `1e-10` guard, `0/0` is NaN, and `torch.max` propagates
NaN, so the epsilon guard never sees a finite value. -/
theorem c4_disp_nan_on_transparent_ray :
    (raw2outputs [⟨0, 0, 0, 0⟩] [0.5] (1, 0, 0) [0] false).disp = FVal.nan ∧
    (raw2outputs [⟨0, 0, 0, 0⟩] [0.5] (1, 0, 0) [0] false).acc = 0 := by
  have hsig : sigmasOf [⟨0, 0, 0, 0⟩] [0] = [0] := by
    norm_num [sigmasOf]
  have hdists : distsScaled [0.5] (1, 0, 0) = [1e10] := by
    rw [distsScaled, norm3_unit_x]
    norm_num
  have halist : alphasOf [0] [0.5] (1, 0, 0) = [0] := by
    rw [alphasOf, hdists]
    norm_num [relu, max_def, Real.exp_zero]
  have hws : weightsOfAlphas [0] = [0] := by
    simp [weightsOfAlphas, exclusiveCumprod, List.scanl]
  have hdisp_eq : (raw2outputs [⟨0, 0, 0, 0⟩] [0.5] (1, 0, 0) [0] false).disp =
      finv (fmax (FVal.val 1e-10) (fdivZ
        ((List.zipWith (· * ·)
          (weightsOfAlphas (alphasOf (sigmasOf [⟨0, 0, 0, 0⟩] [0]) [0.5] (1, 0, 0)))
          [0.5]).sum)
        ((weightsOfAlphas (alphasOf (sigmasOf [⟨0, 0, 0, 0⟩] [0]) [0.5] (1, 0, 0))).sum))) :=
    rfl
  have hacc_eq : (raw2outputs [⟨0, 0, 0, 0⟩] [0.5] (1, 0, 0) [0] false).acc =
      (weightsOfAlphas (alphasOf (sigmasOf [⟨0, 0, 0, 0⟩] [0]) [0.5] (1, 0, 0))).sum :=
    rfl
  constructor
  · rw [hdisp_eq, hsig, halist, hws]
    norm_num [fdivZ, fmax, finv]
  · rw [hacc_eq, hsig, halist, hws]
    simp

/-! ## Claim C7: fully transparent ray and white-background compositing -/

theorem v3smul_zero_fold (vs : List Vec3) :
    ∀ ws : List ℝ, (∀ w ∈ ws, w = 0) →
      (List.zipWith v3smul ws vs).foldr v3add ((0 : ℝ), (0 : ℝ), (0 : ℝ)) =
        ((0 : ℝ), (0 : ℝ), (0 : ℝ)) := by
  induction vs with
  | nil => intro ws _; simp
  | cons v vt ih =>
    intro ws hws
    cases ws with
    | nil => simp
    | cons w wt =>
      have hw0 : w = 0 := hws w (List.mem_cons_self w wt)
      have := ih wt (fun x hx => hws x (List.mem_cons_of_mem w hx))
      simp only [List.zipWith_cons_cons, List.foldr_cons, this, hw0]
      simp [v3add, v3smul]

theorem alphas_zero_of_relu_zero (raw : List Raw4) (nv : List ℝ) (z : List ℝ)
    (d : Vec3) (h : ∀ i, relu ((raw.getD i ⟨0, 0, 0, 0⟩).s + nv.getD i 0) = 0) :
    ∀ a ∈ alphasOf (sigmasOf raw nv) z d, a = 0 := by
  intro a ha
  rw [List.mem_iff_getElem] at ha
  obtain ⟨i, hi, rfl⟩ := ha
  have hsl : i < (sigmasOf raw nv).length := List.lt_length_left_of_zipWith hi
  have hrl : i < raw.length := List.lt_length_left_of_zipWith hsl
  have hnl : i < nv.length := List.lt_length_right_of_zipWith hsl
  unfold alphasOf
  rw [List.getElem_zipWith]
  have hsig_i : (sigmasOf raw nv)[i] =
      (raw.getD i ⟨0, 0, 0, 0⟩).s + nv.getD i 0 := by
    unfold sigmasOf
    rw [List.getElem_zipWith, getD_lt raw i _ hrl, getD_lt nv i _ hnl]
  rw [hsig_i, h i]
  simp [Real.exp_zero]

/-- C7.  Fully transparent ray: whenever every raw density activates to zero,
`raw2outputs` returns `acc_map = 0`, `rgb_map = (0,0,0)` without
white-background compositing and `rgb_map = (1,1,1)` with it; and in general
white-background compositing adds `1 - acc_map` to every color channel after
integration. -/
theorem c7_transparent_ray (raw : List Raw4) (z : List ℝ) (d : Vec3)
    (nv : List ℝ) :
    ((raw2outputs raw z d nv true).rgb =
      v3add (raw2outputs raw z d nv false).rgb
        (1 - (raw2outputs raw z d nv false).acc,
          1 - (raw2outputs raw z d nv false).acc,
          1 - (raw2outputs raw z d nv false).acc)) ∧
    ((∀ i, relu ((raw.getD i ⟨0, 0, 0, 0⟩).s + nv.getD i 0) = 0) →
      (raw2outputs raw z d nv false).acc = 0 ∧
      (raw2outputs raw z d nv false).rgb = ((0 : ℝ), (0 : ℝ), (0 : ℝ)) ∧
      (raw2outputs raw z d nv true).rgb = ((1 : ℝ), (1 : ℝ), (1 : ℝ))) := by
  constructor
  · rfl
  · intro h
    have hal := alphas_zero_of_relu_zero raw nv z d h
    have hw0 : ∀ w ∈ weightsOfAlphas (alphasOf (sigmasOf raw nv) z d), w = 0 := by
      intro w hw
      unfold weightsOfAlphas at hw
      rw [List.mem_iff_getElem] at hw
      obtain ⟨i, hi, rfl⟩ := hw
      rw [List.getElem_zipWith]
      have := hal _ (List.getElem_mem (List.lt_length_left_of_zipWith hi))
      rw [this, zero_mul]
    have hacc : (raw2outputs raw z d nv false).acc = 0 := by
      have : (raw2outputs raw z d nv false).acc =
          (weightsOfAlphas (alphasOf (sigmasOf raw nv) z d)).sum := rfl
      rw [this]
      exact List.sum_eq_zero hw0
    have hrgb : (raw2outputs raw z d nv false).rgb = ((0 : ℝ), (0 : ℝ), (0 : ℝ)) := by
      have : (raw2outputs raw z d nv false).rgb =
          (List.zipWith v3smul (weightsOfAlphas (alphasOf (sigmasOf raw nv) z d))
            (raw.map (fun p => (sigmoid p.r, sigmoid p.g, sigmoid p.b)))).foldr
            v3add ((0 : ℝ), (0 : ℝ), (0 : ℝ)) := rfl
      rw [this]
      exact v3smul_zero_fold _ _ hw0
    refine ⟨hacc, hrgb, ?_⟩
    have hwhite : (raw2outputs raw z d nv true).rgb =
        v3add (raw2outputs raw z d nv false).rgb
          (1 - (raw2outputs raw z d nv false).acc,
            1 - (raw2outputs raw z d nv false).acc,
            1 - (raw2outputs raw z d nv false).acc) := rfl
    rw [hwhite, hacc, hrgb]
    norm_num [v3add]

/-- Witness for C7: one sample with density pre-activation `-1` (activating
to zero) at depth 2. -/
theorem c7_transparent_ray_witness :
    (∀ i, relu ((([⟨0, 0, 0, -1⟩] : List Raw4).getD i ⟨0, 0, 0, 0⟩).s +
      ([0] : List ℝ).getD i 0) = 0) ∧
    (raw2outputs [⟨0, 0, 0, -1⟩] [2] (1, 0, 0) [0] false).acc = 0 ∧
    (raw2outputs [⟨0, 0, 0, -1⟩] [2] (1, 0, 0) [0] false).rgb =
      ((0 : ℝ), (0 : ℝ), (0 : ℝ)) ∧
    (raw2outputs [⟨0, 0, 0, -1⟩] [2] (1, 0, 0) [0] true).rgb =
      ((1 : ℝ), (1 : ℝ), (1 : ℝ)) := by
  have h : ∀ i, relu ((([⟨0, 0, 0, -1⟩] : List Raw4).getD i ⟨0, 0, 0, 0⟩).s +
      ([0] : List ℝ).getD i 0) = 0 := by
    intro i
    match i with
    | 0 => norm_num [relu, max_def]
    | n + 1 => simp [relu, max_def]
  exact ⟨h, (c7_transparent_ray [⟨0, 0, 0, -1⟩] [2] (1, 0, 0) [0]).2 h⟩

/-! ## Claim C5: sorted merge of coarse and fine depths -/

/-- C5.  Two-stage merge ordering: the depths passed to the second field
query, `mergedZ z zs` (used by `perRayCompute` when the fine stage is
active), are a sorted-ascending permutation of the concatenation of the
coarse and fine depths; on the spec's example, coarse `[0.2, 0.5, 0.8]`
merged with fine `[0.3, 0.6]` yields `[0.2, 0.3, 0.5, 0.6, 0.8]`. -/
theorem c5_merge_sorted :
    (∀ zc zs : List ℝ, (mergedZ zc zs).Sorted (· ≤ ·) ∧
      (mergedZ zc zs).Perm (zc ++ zs)) ∧
    mergedZ [0.2, 0.5, 0.8] [0.3, 0.6] = [0.2, 0.3, 0.5, 0.6, 0.8] := by
  constructor
  · intro zc zs
    exact ⟨List.sorted_insertionSort (· ≤ ·) (zc ++ zs),
      List.perm_insertionSort (· ≤ ·) (zc ++ zs)⟩
  · norm_num [mergedZ, List.insertionSort, List.orderedInsert]

/-! ## Claim C6: the coarse sampling schedule -/

theorem tVals_length (S : ℕ) : (tVals S).length = S := by
  simp [tVals]

theorem tVals_getD (S i : ℕ) (h : i < S) :
    (tVals S).getD i 0 = (i : ℝ) / ((S : ℝ) - 1) := by
  rw [getD_lt _ _ _ (by simpa [tVals] using h)]
  unfold tVals
  rw [List.getElem_map, List.getElem_range]

theorem zValsBase_false_getD (near far : ℝ) (S i : ℕ) (h : i < S) :
    (zValsBase false near far S).getD i 0 =
      near * (1 - (i : ℝ) / ((S : ℝ) - 1)) + far * ((i : ℝ) / ((S : ℝ) - 1)) := by
  have hz : zValsBase false near far S =
      (tVals S).map (fun t => near * (1 - t) + far * t) := rfl
  rw [hz, getD_map_lt _ _ _ (by simpa [tVals_length] using h), tVals_getD S i h]

theorem zValsBase_true_getD (near far : ℝ) (S i : ℕ) (h : i < S) :
    (zValsBase true near far S).getD i 0 =
      1 / (1 / near * (1 - (i : ℝ) / ((S : ℝ) - 1)) +
        1 / far * ((i : ℝ) / ((S : ℝ) - 1))) := by
  have hz : zValsBase true near far S =
      (tVals S).map (fun t => 1 / (1 / near * (1 - t) + 1 / far * t)) := rfl
  rw [hz, getD_map_lt _ _ _ (by simpa [tVals_length] using h), tVals_getD S i h]

theorem midsOf_length (z : List ℝ) : (midsOf z).length = z.length - 1 := by
  simp [midsOf, List.length_zipWith, List.length_tail]

theorem midsOf_getD (z : List ℝ) (i : ℕ) (h : i + 1 < z.length) :
    (midsOf z).getD i 0 = 0.5 * (z.getD (i + 1) 0 + z.getD i 0) := by
  have hl : i < (midsOf z).length := by rw [midsOf_length]; omega
  rw [getD_lt _ _ _ hl, getD_lt _ _ _ h, getD_lt _ _ _ (by omega)]
  unfold midsOf
  rw [List.getElem_zipWith, List.getElem_tail]

theorem lowerOf_length (z : List ℝ) (hz : z ≠ []) :
    (lowerOf z).length = z.length := by
  have hn : z.length ≠ 0 := by simpa [List.length_eq_zero] using hz
  simp [lowerOf, midsOf_length, List.length_take]
  omega

theorem upperOf_length (z : List ℝ) (hz : z ≠ []) :
    (upperOf z).length = z.length := by
  have hn : z.length ≠ 0 := by simpa [List.length_eq_zero] using hz
  simp [upperOf, midsOf_length, List.length_drop]

theorem lowerOf_getD_zero (z : List ℝ) (hz : z ≠ []) :
    (lowerOf z).getD 0 0 = z.getD 0 0 := by
  cases z with
  | nil => exact absurd rfl hz
  | cons a t => simp [lowerOf]

theorem lowerOf_getD_succ (z : List ℝ) (i : ℕ) (h : i + 1 < z.length) :
    (lowerOf z).getD (i + 1) 0 = 0.5 * (z.getD (i + 1) 0 + z.getD i 0) := by
  cases z with
  | nil => simp at h
  | cons a t =>
    have : lowerOf (a :: t) = a :: midsOf (a :: t) := by
      simp [lowerOf]
    rw [this, List.getD_cons_succ, midsOf_getD (a :: t) i h]

theorem upperOf_getD_mid (z : List ℝ) (i : ℕ) (h : i + 1 < z.length) :
    (upperOf z).getD i 0 = 0.5 * (z.getD (i + 1) 0 + z.getD i 0) := by
  have hz : z ≠ [] := by intro e; subst e; simp at h
  have hm : i < (midsOf z).length := by rw [midsOf_length]; omega
  rw [getD_lt _ _ _ (by rw [upperOf_length z hz]; omega)]
  unfold upperOf
  rw [List.getElem_append_left hm]
  rw [← getD_lt _ _ _ hm, midsOf_getD z i h]

theorem upperOf_getD_last (z : List ℝ) (hz : z ≠ []) :
    (upperOf z).getD (z.length - 1) 0 = z.getD (z.length - 1) 0 := by
  have hn : z.length ≠ 0 := by simpa [List.length_eq_zero] using hz
  have hm : (midsOf z).length = z.length - 1 := midsOf_length z
  rw [getD_lt _ _ _ (by rw [upperOf_length z hz]; omega),
    getD_lt _ _ _ (by omega)]
  unfold upperOf
  rw [List.getElem_append_right (by omega)]
  simp [hm]

theorem zipWith3_getD (f : ℝ → ℝ → ℝ → ℝ) :
    ∀ (l1 l2 l3 : List ℝ) (i : ℕ), i < l1.length → i < l2.length →
      i < l3.length →
      (List.zipWith3 f l1 l2 l3).getD i 0 =
        f (l1.getD i 0) (l2.getD i 0) (l3.getD i 0)
  | x :: xs, y :: ys, w :: ws, 0, _, _, _ => by simp [List.zipWith3]
  | x :: xs, y :: ys, w :: ws, i + 1, h1, h2, h3 => by
    simp only [List.zipWith3, List.getD_cons_succ]
    exact zipWith3_getD f xs ys ws i (by simpa using h1) (by simpa using h2)
      (by simpa using h3)
  | [], _, _, i, h1, _, _ => by simp at h1
  | _ :: _, [], _, i, _, h2, _ => by simp at h2
  | _ :: _, _ :: _, [], i, _, _, h3 => by simp at h3

theorem perturbZ_getD (z tr : List ℝ) (i : ℕ) (h : i < z.length)
    (hlen : tr.length = z.length) :
    (perturbZ z tr).getD i 0 =
      (lowerOf z).getD i 0 +
        ((upperOf z).getD i 0 - (lowerOf z).getD i 0) * tr.getD i 0 := by
  have hz : z ≠ [] := by intro e; subst e; simp at h
  unfold perturbZ
  exact zipWith3_getD _ _ _ _ i (by rw [lowerOf_length z hz]; exact h)
    (by rw [upperOf_length z hz]; exact h) (by omega)

theorem sorted_getD_le (z : List ℝ) (hz : z.Sorted (· ≤ ·)) (i j : ℕ)
    (hij : i ≤ j) (hj : j < z.length) : z.getD i 0 ≤ z.getD j 0 := by
  rcases eq_or_lt_of_le hij with rfl | hlt
  · exact le_refl _
  · rw [getD_lt _ _ _ (by omega), getD_lt _ _ _ hj]
    have := hz.rel_get_of_lt (a := ⟨i, by omega⟩) (b := ⟨j, hj⟩)
      (Fin.mk_lt_mk.mpr hlt)
    simpa [List.get_eq_getElem] using this

theorem lower_le_upper (z : List ℝ) (hz : z.Sorted (· ≤ ·)) (i : ℕ)
    (h : i < z.length) : (lowerOf z).getD i 0 ≤ (upperOf z).getD i 0 := by
  have hne : z ≠ [] := by intro e; subst e; simp at h
  cases i with
  | zero =>
    rw [lowerOf_getD_zero z hne]
    by_cases h2 : 1 < z.length
    · rw [upperOf_getD_mid z 0 (by omega)]
      have := sorted_getD_le z hz 0 1 (by omega) (by omega)
      linarith
    · have hlen : z.length = 1 := by omega
      have h1 : (upperOf z).getD 0 0 = z.getD 0 0 := by
        have := upperOf_getD_last z hne
        rwa [hlen] at this
      rw [h1]
  | succ j =>
    rw [lowerOf_getD_succ z j h]
    by_cases h2 : j + 1 + 1 < z.length
    · rw [upperOf_getD_mid z (j + 1) h2]
      have := sorted_getD_le z hz j (j + 2) (by omega) (by omega)
      linarith
    · have hlen : j + 1 = z.length - 1 := by omega
      rw [hlen, upperOf_getD_last z hne, ← hlen]
      have := sorted_getD_le z hz j (j + 1) (by omega) h
      linarith

/-- C6.  Coarse sampling schedule: the base depths are the linear
interpolation `near * (1 - t) + far * t` for `t = i / (S - 1)` evenly spaced
in `[0, 1]` (with constant spacing `(far - near)/(S - 1)`), or
`1 / (1/near * (1-t) + 1/far * t)` in inverse-depth space when `lindisp` is
set; and with jitter enabled each depth is replaced by a point inside its
bin `[lower i, upper i]` (for jitter values in `[0, 1]`), where the interior
bin edges are the midpoints of adjacent samples and the first lower bound
and last upper bound are the original endpoint samples. -/
theorem c6_coarse_sampling (near far : ℝ) (S : ℕ) :
    (∀ i, i < S → (zValsBase false near far S).getD i 0 =
      near * (1 - (i : ℝ) / ((S : ℝ) - 1)) + far * ((i : ℝ) / ((S : ℝ) - 1))) ∧
    (∀ i, i + 1 < S → (zValsBase false near far S).getD (i + 1) 0 -
      (zValsBase false near far S).getD i 0 = (far - near) / ((S : ℝ) - 1)) ∧
    (∀ i, i < S → (zValsBase true near far S).getD i 0 =
      1 / (1 / near * (1 - (i : ℝ) / ((S : ℝ) - 1)) +
        1 / far * ((i : ℝ) / ((S : ℝ) - 1)))) ∧
    (∀ z tr : List ℝ, z.Sorted (· ≤ ·) → tr.length = z.length →
      (∀ t ∈ tr, 0 ≤ t ∧ t ≤ 1) → ∀ i, i < z.length →
        (lowerOf z).getD i 0 ≤ (perturbZ z tr).getD i 0 ∧
          (perturbZ z tr).getD i 0 ≤ (upperOf z).getD i 0) ∧
    (∀ z : List ℝ, z ≠ [] →
      (lowerOf z).getD 0 0 = z.getD 0 0 ∧
      (upperOf z).getD (z.length - 1) 0 = z.getD (z.length - 1) 0) ∧
    (∀ z : List ℝ, ∀ i, i + 1 < z.length →
      (upperOf z).getD i 0 = 0.5 * (z.getD (i + 1) 0 + z.getD i 0) ∧
      (lowerOf z).getD (i + 1) 0 = 0.5 * (z.getD (i + 1) 0 + z.getD i 0)) := by
  refine ⟨fun i hi => zValsBase_false_getD near far S i hi, fun i hi => ?_,
    fun i hi => zValsBase_true_getD near far S i hi, ?_,
    fun z hz => ⟨lowerOf_getD_zero z hz, upperOf_getD_last z hz⟩,
    fun z i hi => ⟨upperOf_getD_mid z i hi, lowerOf_getD_succ z i hi⟩⟩
  · have hc : ((S : ℝ) - 1) ≠ 0 := by
      have h2 : (2 : ℝ) ≤ (S : ℝ) := by exact_mod_cast (by omega : (2 : ℕ) ≤ S)
      intro e
      linarith
    rw [zValsBase_false_getD near far S (i + 1) hi,
      zValsBase_false_getD near far S i (by omega)]
    push_cast
    field_simp
    ring
  · intro z tr hz hlen htr i hi
    have hte : tr.getD i 0 ∈ tr := by
      rw [getD_lt _ _ _ (by omega)]
      exact List.getElem_mem _
    have ht := htr _ hte
    have hlu := lower_le_upper z hz i hi
    rw [perturbZ_getD z tr i hi hlen]
    constructor
    · nlinarith [ht.1, ht.2]
    · nlinarith [ht.1, ht.2]

/-- Witness for C6 with `near = 2`, `far = 6`, `S = 3`, and for the jitter
part the sorted depths `[0, 1, 3]` with jitter values `[1/2, 1/2, 1/2]`. -/
theorem c6_coarse_sampling_witness :
    ((1 : ℕ) < 3 ∧ (zValsBase false 2 6 3).getD 1 0 =
      2 * (1 - ((1 : ℕ) : ℝ) / (((3 : ℕ) : ℝ) - 1)) +
        6 * (((1 : ℕ) : ℝ) / (((3 : ℕ) : ℝ) - 1))) ∧
    ((0 : ℕ) + 1 < 3 ∧ (zValsBase false 2 6 3).getD (0 + 1) 0 -
      (zValsBase false 2 6 3).getD 0 0 = (6 - 2) / (((3 : ℕ) : ℝ) - 1)) ∧
    ((zValsBase true 2 6 3).getD 1 0 =
      1 / (1 / 2 * (1 - ((1 : ℕ) : ℝ) / (((3 : ℕ) : ℝ) - 1)) +
        1 / 6 * (((1 : ℕ) : ℝ) / (((3 : ℕ) : ℝ) - 1)))) ∧
    (([0, 1, 3] : List ℝ).Sorted (· ≤ ·) ∧
      ([1 / 2, 1 / 2, 1 / 2] : List ℝ).length = ([0, 1, 3] : List ℝ).length ∧
      (∀ t ∈ ([1 / 2, 1 / 2, 1 / 2] : List ℝ), 0 ≤ t ∧ t ≤ 1) ∧
      ((lowerOf [0, 1, 3]).getD 1 0 ≤
          (perturbZ [0, 1, 3] [1 / 2, 1 / 2, 1 / 2]).getD 1 0 ∧
        (perturbZ [0, 1, 3] [1 / 2, 1 / 2, 1 / 2]).getD 1 0 ≤
          (upperOf [0, 1, 3]).getD 1 0)) ∧
    ((lowerOf [0, 1, 3]).getD 0 0 = ([0, 1, 3] : List ℝ).getD 0 0 ∧
      (upperOf [0, 1, 3]).getD (([0, 1, 3] : List ℝ).length - 1) 0 =
        ([0, 1, 3] : List ℝ).getD (([0, 1, 3] : List ℝ).length - 1) 0) ∧
    ((upperOf [0, 1, 3]).getD 0 0 =
        0.5 * (([0, 1, 3] : List ℝ).getD (0 + 1) 0 + ([0, 1, 3] : List ℝ).getD 0 0) ∧
      (lowerOf [0, 1, 3]).getD (0 + 1) 0 =
        0.5 * (([0, 1, 3] : List ℝ).getD (0 + 1) 0 + ([0, 1, 3] : List ℝ).getD 0 0)) := by
  have hs : ([0, 1, 3] : List ℝ).Sorted (· ≤ ·) := by
    norm_num [List.sorted_cons]
  have htr : ∀ t ∈ ([1 / 2, 1 / 2, 1 / 2] : List ℝ), 0 ≤ t ∧ t ≤ 1 := by
    intro t ht
    fin_cases ht <;> norm_num
  exact ⟨⟨by norm_num, (c6_coarse_sampling 2 6 3).1 1 (by norm_num)⟩,
    ⟨by norm_num, (c6_coarse_sampling 2 6 3).2.1 0 (by norm_num)⟩,
    (c6_coarse_sampling 2 6 3).2.2.1 1 (by norm_num),
    ⟨hs, by norm_num, htr,
      (c6_coarse_sampling 2 6 3).2.2.2.1 [0, 1, 3] [1 / 2, 1 / 2, 1 / 2] hs
        (by norm_num) htr 1 (by norm_num)⟩,
    (c6_coarse_sampling 2 6 3).2.2.2.2.1 [0, 1, 3] (by simp),
    (c6_coarse_sampling 2 6 3).2.2.2.2.2 [0, 1, 3] 0 (by norm_num)⟩

/-! ## Deterministic-mode lemmas for the Ray-Batch Renderer -/

theorem perRayCompute_det (cfg : NerfCfg) (ray : RayRec) (jit n1 u n2 : ℕ → ℝ)
    (hp : cfg.perturb = 0) (hn : cfg.noiseStd = 0) :
    perRayCompute cfg ray jit n1 u n2 = detPerRay cfg ray := by
  unfold detPerRay perRayCompute
  simp [hp, hn, noiseList]

theorem mapWithIdx_const {α β : Type _} (f : ℕ → α → β) (g : α → β)
    (h : ∀ i a, f i a = g a) : ∀ (i0 : ℕ) (l : List α),
      mapWithIdx f i0 l = l.map g
  | _, [] => rfl
  | i0, a :: l => by
    simp only [mapWithIdx, List.map_cons, h i0 a,
      mapWithIdx_const f g h (i0 + 1) l]

theorem consumedCount_det (cfg : NerfCfg) (N : ℕ) (hp : cfg.perturb = 0)
    (hn : cfg.noiseStd = 0) : consumedCount cfg N = 0 := by
  simp [consumedCount, hp, hn]

theorem renderRays_det (cfg : NerfCfg) (rays : List RayRec) (rng : ℕ → ℝ)
    (off : ℕ) (hp : cfg.perturb = 0) (hn : cfg.noiseStd = 0) :
    renderRays cfg rays rng off =
      (assembleRet cfg (rays.map (detPerRay cfg)), off) := by
  simp only [renderRays]
  rw [mapWithIdx_const _ (detPerRay cfg)
    (fun i a => perRayCompute_det cfg a _ _ _ _ hp hn) 0 rays,
    consumedCount_det cfg rays.length hp hn]
  simp

/-- C8.  Deterministic-mode reproducibility: with stratified perturbation
disabled and zero noise standard deviation, `renderRays` consumes no values
from the random stream and its outputs do not depend on the stream or on the
stream cursor, so two calls on identical inputs agree on every returned
key. -/
theorem c8_deterministic_reproducibility (cfg : NerfCfg) (rays : List RayRec)
    (rng₁ : ℕ → ℝ) (o₁ : ℕ) (rng₂ : ℕ → ℝ) (o₂ : ℕ)
    (hp : cfg.perturb = 0) (hn : cfg.noiseStd = 0) :
    (renderRays cfg rays rng₁ o₁).1 = (renderRays cfg rays rng₂ o₂).1 ∧
    (renderRays cfg rays rng₁ o₁).2 = o₁ := by
  rw [renderRays_det cfg rays rng₁ o₁ hp hn, renderRays_det cfg rays rng₂ o₂ hp hn]
  exact ⟨rfl, rfl⟩

/-- Witness for C8: the deterministic configuration on one concrete ray,
with two very different streams and cursors. -/
theorem c8_deterministic_reproducibility_witness :
    cfgDet.perturb = 0 ∧ cfgDet.noiseStd = 0 ∧
    (renderRays cfgDet [rayCE] (fun _ => 0) 5).1 =
      (renderRays cfgDet [rayCE] rngCE 7).1 ∧
    (renderRays cfgDet [rayCE] (fun _ => 0) 5).2 = 5 := by
  have h := c8_deterministic_reproducibility cfgDet [rayCE] (fun _ => 0) 5 rngCE 7
    rfl rfl
  exact ⟨rfl, rfl, h.1, h.2⟩

/-! ## Pytest-mode lemmas -/

theorem drawSrc_pytest (rng : ℕ → ℝ) (base r n : ℕ) :
    drawSrc true rng base r n = fun i => npRand (r * n + i) := by
  funext i
  simp [drawSrc]

theorem renderRays_pytest (cfg : NerfCfg) (rays : List RayRec) (rng : ℕ → ℝ)
    (off : ℕ) (h : cfg.pytest = true) :
    renderRays cfg rays rng off =
      (assembleRet cfg (mapWithIdx (fun r ray => perRayCompute cfg ray
        (fun i => npRand (r * cfg.nSamples + i))
        (fun i => npRand (r * cfg.nSamples + i))
        (fun i => npRand (r * cfg.nImp + i))
        (fun i => npRand (r * (cfg.nSamples + cfg.nImp) + i))) 0 rays),
        off + consumedCount cfg rays.length) := by
  simp only [renderRays, h, drawSrc_pytest]

/-- C10.  Pytest-mode reseeding: with `pytest` enabled, every substituted
pseudo-random value is read from the fixed reseeded numpy sequence at a
position determined only by the draw's shape, so the outputs of
`renderRays` do not depend on the live torch stream or on its cursor: each
call is a deterministic function of its arguments, the stream cursor still
advances by the shape-determined count (the torch draws still happen before
being overwritten), and two equal-shaped chunks receive the very same
substituted values. -/
theorem c10_pytest_reseed (cfg : NerfCfg) (rays : List RayRec)
    (rng₁ : ℕ → ℝ) (o₁ : ℕ) (rng₂ : ℕ → ℝ) (o₂ : ℕ) (h : cfg.pytest = true) :
    (renderRays cfg rays rng₁ o₁).1 = (renderRays cfg rays rng₂ o₂).1 ∧
    (renderRays cfg rays rng₁ o₁).2 = o₁ + consumedCount cfg rays.length ∧
    (renderRays cfg rays rng₂ o₂).2 = o₂ + consumedCount cfg rays.length ∧
    (∀ base₁ base₂ r n i, drawSrc true rng₁ base₁ r n i = npRand (r * n + i) ∧
      drawSrc true rng₂ base₂ r n i = npRand (r * n + i)) := by
  rw [renderRays_pytest cfg rays rng₁ o₁ h, renderRays_pytest cfg rays rng₂ o₂ h]
  refine ⟨rfl, rfl, rfl, fun base₁ base₂ r n i => ⟨?_, ?_⟩⟩
  · simp [drawSrc]
  · simp [drawSrc]

/-- Witness for C10: the pytest configuration (jitter and noise enabled) on
two concrete rays, with two very different streams and cursors. -/
theorem c10_pytest_reseed_witness :
    cfgPT.pytest = true ∧
    (renderRays cfgPT [rayCE, rayCE] (fun _ => 0) 3).1 =
      (renderRays cfgPT [rayCE, rayCE] rngCE 11).1 ∧
    (renderRays cfgPT [rayCE, rayCE] (fun _ => 0) 3).2 =
      3 + consumedCount cfgPT 2 ∧
    drawSrc true rngCE 11 1 2 0 = npRand (1 * 2 + 0) := by
  have h := c10_pytest_reseed cfgPT [rayCE, rayCE] (fun _ => 0) 3 rngCE 11 rfl
  exact ⟨rfl, h.1, h.2.1, (h.2.2.2 5 11 1 2 0).2⟩

/-! ## Chunking lemmas -/

theorem optAppend_none {α : Type _} (a : Option (List α)) :
    optAppend a none = a := by
  cases a <;> rfl

theorem appendRet_empty (x : RenderRet) : appendRet x emptyRet = x := by
  cases x
  simp [appendRet, emptyRet, optAppend_none]

theorem assembleRet_append (cfg : NerfCfg) (l1 l2 : List PerRayFull) :
    assembleRet cfg (l1 ++ l2) =
      appendRet (assembleRet cfg l1) (assembleRet cfg l2) := by
  by_cases hr : cfg.retraw <;> by_cases hi : 0 < cfg.nImp <;>
    simp [assembleRet, appendRet, optAppend, hr, hi]

theorem batchifyGo_nil (cfg : NerfCfg) (c : ℕ) (rng : ℕ → ℝ) (off : ℕ) :
    batchifyGo cfg c [] rng off = (emptyRet, off) := by
  rw [batchifyGo]

theorem batchifyGo_cons (cfg : NerfCfg) (c : ℕ) (x : RayRec) (l : List RayRec)
    (rng : ℕ → ℝ) (off : ℕ) :
    batchifyGo cfg c (x :: l) rng off =
      (appendRet (renderRays cfg ((x :: l).take (c + 1)) rng off).1
        (batchifyGo cfg c ((x :: l).drop (c + 1)) rng
          (renderRays cfg ((x :: l).take (c + 1)) rng off).2).1,
        (batchifyGo cfg c ((x :: l).drop (c + 1)) rng
          (renderRays cfg ((x :: l).take (c + 1)) rng off).2).2) := by
  rw [batchifyGo]

theorem batchifyGo_det (cfg : NerfCfg) (hp : cfg.perturb = 0)
    (hn : cfg.noiseStd = 0) (c : ℕ) :
    ∀ (n : ℕ) (rays : List RayRec) (rng : ℕ → ℝ) (off : ℕ),
      rays.length ≤ n → rays ≠ [] →
      batchifyGo cfg c rays rng off =
        (assembleRet cfg (rays.map (detPerRay cfg)), off) := by
  intro n
  induction n with
  | zero =>
    intro rays rng off hlen hne
    have : rays = [] := by
      cases rays with
      | nil => rfl
      | cons a t => simp at hlen
    exact absurd this hne
  | succ n ih =>
    intro rays rng off hlen hne
    cases rays with
    | nil => exact absurd rfl hne
    | cons x l =>
      rw [batchifyGo_cons,
        renderRays_det cfg ((x :: l).take (c + 1)) rng off hp hn]
      by_cases hd : (x :: l).drop (c + 1) = []
      · have htk : (x :: l).take (c + 1) = x :: l :=
          List.take_of_length_le (List.drop_eq_nil_iff.mp hd)
        rw [hd, batchifyGo_nil, htk]
        simp [appendRet_empty]
      · have hdl : ((x :: l).drop (c + 1)).length ≤ n := by
          have h1 : (x :: l).length ≤ n + 1 := hlen
          simp [List.length_drop] at h1 ⊢
          omega
        rw [ih ((x :: l).drop (c + 1)) rng off hdl hd]
        simp only []
        rw [← assembleRet_append, ← List.map_append, List.take_append_drop]

theorem batchifyRays_det (cfg : NerfCfg) (chunk : ℕ) (rays : List RayRec)
    (rng : ℕ → ℝ) (off : ℕ) (hp : cfg.perturb = 0) (hn : cfg.noiseStd = 0)
    (hc : 0 < chunk) (hne : rays ≠ []) :
    batchifyRays cfg chunk rays rng off =
      (assembleRet cfg (rays.map (detPerRay cfg)), off) := by
  cases chunk with
  | zero => omega
  | succ c =>
    exact batchifyGo_det cfg hp hn c rays.length rays rng off (le_refl _) hne

/-- C1 (amended).  Chunk invariance of rendering in deterministic mode: with
stratified perturbation disabled and zero noise standard deviation, the
output of `render` is identical for every two positive chunk sizes, every
torch stream and every stream cursor, and (for a nonempty batch) equals the
unchunked `render_rays` result — chunking only splits the batch into
contiguous slices, maps `render_rays` over them and concatenates the
per-key results in original ray order.  (With jitter and noise enabled the
per-chunk random draws consume the shared stream in a different order for
different chunk sizes, and the outputs can differ; see the counterexample
theorem.) -/
theorem c1_chunk_invariance (cfg : NerfCfg) (rays : List RayRec)
    (rng₁ : ℕ → ℝ) (o₁ : ℕ) (rng₂ : ℕ → ℝ) (o₂ : ℕ) (c₁ c₂ : ℕ)
    (hp : cfg.perturb = 0) (hn : cfg.noiseStd = 0) (h₁ : 0 < c₁)
    (h₂ : 0 < c₂) :
    render cfg c₁ rays rng₁ o₁ = render cfg c₂ rays rng₂ o₂ ∧
    (rays ≠ [] →
      render cfg c₁ rays rng₁ o₁ = (renderRays cfg rays rng₁ o₁).1) := by
  by_cases hne : rays = []
  · subst hne
    refine ⟨?_, fun hc => absurd rfl hc⟩
    obtain ⟨d₁, rfl⟩ : ∃ d, c₁ = d + 1 := ⟨c₁ - 1, by omega⟩
    obtain ⟨d₂, rfl⟩ : ∃ d, c₂ = d + 1 := ⟨c₂ - 1, by omega⟩
    show (batchifyGo cfg d₁ [] rng₁ o₁).1 = (batchifyGo cfg d₂ [] rng₂ o₂).1
    rw [batchifyGo_nil, batchifyGo_nil]
  · constructor
    · show (batchifyRays cfg c₁ rays rng₁ o₁).1 =
        (batchifyRays cfg c₂ rays rng₂ o₂).1
      rw [batchifyRays_det cfg c₁ rays rng₁ o₁ hp hn h₁ hne,
        batchifyRays_det cfg c₂ rays rng₂ o₂ hp hn h₂ hne]
    · intro _
      show (batchifyRays cfg c₁ rays rng₁ o₁).1 = (renderRays cfg rays rng₁ o₁).1
      rw [batchifyRays_det cfg c₁ rays rng₁ o₁ hp hn h₁ hne,
        renderRays_det cfg rays rng₁ o₁ hp hn]

/-- Witness for C1 (amended): the deterministic configuration on two
concrete rays, chunk sizes 1 and 2, two different streams and cursors. -/
theorem c1_chunk_invariance_witness :
    cfgDet.perturb = 0 ∧ cfgDet.noiseStd = 0 ∧ (0 : ℕ) < 1 ∧ (0 : ℕ) < 2 ∧
    render cfgDet 1 [rayCE, rayCE] (fun _ => 0) 5 =
      render cfgDet 2 [rayCE, rayCE] rngCE 7 ∧
    ([rayCE, rayCE] ≠ ([] : List RayRec) ∧
      render cfgDet 1 [rayCE, rayCE] (fun _ => 0) 5 =
        (renderRays cfgDet [rayCE, rayCE] (fun _ => 0) 5).1) := by
  have h := c1_chunk_invariance cfgDet [rayCE, rayCE] (fun _ => 0) 5 rngCE 7 1 2
    rfl rfl (by norm_num) (by norm_num)
  exact ⟨rfl, rfl, by norm_num, by norm_num, h.1, by simp, h.2 (by simp)⟩

/-! ## Counterexample to unconditional chunk invariance -/

theorem appendRet_raw (x y : RenderRet) :
    (appendRet x y).raw = optAppend x.raw y.raw := rfl

theorem assembleRet_raw (cfg : NerfCfg) (l : List PerRayFull) :
    (assembleRet cfg l).raw =
      if cfg.retraw then some (l.map (fun p => p.rawPred)) else none := rfl

theorem renderRays_snd (cfg : NerfCfg) (rays : List RayRec) (rng : ℕ → ℝ)
    (off : ℕ) :
    (renderRays cfg rays rng off).2 = off + consumedCount cfg rays.length := rfl

theorem range_two : List.range 2 = [0, 1] := rfl

theorem perRayCE_raw (j n1 u n2 : ℕ → ℝ) :
    (perRayCompute cfgCE rayCE j n1 u n2).rawPred =
      [⟨0.5 * j 0, 0, 0, 0⟩, ⟨0.5 + 0.5 * j 1, 0, 0, 0⟩] := by
  norm_num [perRayCompute, cfgCE, rayCE, netCE, zValsBase, tVals, perturbZ,
    lowerOf, upperOf, midsOf, ptAt, v3add, v3smul, range_two, List.zipWith3]

theorem cfgCE_retraw : cfgCE.retraw = true := rfl

theorem cfgCE_pytest : cfgCE.pytest = false := rfl

theorem renderRaysCE_one_raw (rng : ℕ → ℝ) (off : ℕ) :
    (renderRays cfgCE [rayCE] rng off).1.raw =
      some [[⟨0.5 * rng off, 0, 0, 0⟩, ⟨0.5 + 0.5 * rng (off + 1), 0, 0, 0⟩]] := by
  simp only [renderRays, mapWithIdx]
  norm_num [assembleRet_raw, cfgCE_retraw, cfgCE_pytest, perRayCE_raw, drawSrc]

theorem renderRaysCE_two_raw (rng : ℕ → ℝ) (off : ℕ) :
    (renderRays cfgCE [rayCE, rayCE] rng off).1.raw =
      some [[⟨0.5 * rng off, 0, 0, 0⟩, ⟨0.5 + 0.5 * rng (off + 1), 0, 0, 0⟩],
        [⟨0.5 * rng (off + 2), 0, 0, 0⟩, ⟨0.5 + 0.5 * rng (off + 3), 0, 0, 0⟩]] := by
  simp only [renderRays, mapWithIdx]
  norm_num [assembleRet_raw, cfgCE_retraw, cfgCE_pytest, perRayCE_raw, drawSrc,
    add_assoc, show cfgCE.nSamples = 2 from rfl]

theorem consumedCountCE_one : consumedCount cfgCE 1 = 4 := by
  norm_num [consumedCount, cfgCE]

theorem renderCE_chunk1_raw :
    (render cfgCE 1 [rayCE, rayCE] rngCE 0).raw =
      some [[⟨0.5 * rngCE 0, 0, 0, 0⟩, ⟨0.5 + 0.5 * rngCE 1, 0, 0, 0⟩],
        [⟨0.5 * rngCE 4, 0, 0, 0⟩, ⟨0.5 + 0.5 * rngCE 5, 0, 0, 0⟩]] := by
  show (batchifyGo cfgCE 0 [rayCE, rayCE] rngCE 0).1.raw = _
  rw [batchifyGo_cons]
  simp only [List.take_succ_cons, List.take_zero, List.drop_succ_cons,
    List.drop_zero]
  rw [batchifyGo_cons]
  simp only [List.take_succ_cons, List.take_zero, List.drop_succ_cons,
    List.drop_zero]
  rw [batchifyGo_nil]
  simp only [appendRet_raw, renderRays_snd]
  rw [renderRaysCE_one_raw, renderRaysCE_one_raw]
  norm_num [emptyRet, optAppend, consumedCountCE_one]

theorem renderCE_chunk2_raw :
    (render cfgCE 2 [rayCE, rayCE] rngCE 0).raw =
      some [[⟨0.5 * rngCE 0, 0, 0, 0⟩, ⟨0.5 + 0.5 * rngCE 1, 0, 0, 0⟩],
        [⟨0.5 * rngCE 2, 0, 0, 0⟩, ⟨0.5 + 0.5 * rngCE 3, 0, 0, 0⟩]] := by
  show (batchifyGo cfgCE 1 [rayCE, rayCE] rngCE 0).1.raw = _
  rw [batchifyGo_cons]
  simp only [List.take_succ_cons, List.take_zero, List.drop_succ_cons,
    List.drop_zero]
  rw [batchifyGo_nil]
  simp only [appendRet_raw]
  rw [renderRaysCE_two_raw]
  norm_num [emptyRet, optAppend]

/-- Counterexample to C1 as stated: with stratified jitter and density noise
enabled (a training-style configuration) and the live stream model of the
torch generator, chunk sizes 1 and 2 give different outputs on the same
two-ray batch, because each chunk interleaves its jitter and noise draws, so
the stream positions feeding the second ray's jitter differ between the two
chunkings.  The returned raw predictions (an extras entry) differ. -/
theorem c1_chunk_noninvariance_counterexample :
    render cfgCE 1 [rayCE, rayCE] rngCE 0 ≠ render cfgCE 2 [rayCE, rayCE] rngCE 0 := by
  intro h
  have h2 := congrArg RenderRet.raw h
  rw [renderCE_chunk1_raw, renderCE_chunk2_raw] at h2
  norm_num [rngCE] at h2

/-! ## Claim C9: input shape handling of `render_rays` -/

theorem boundsFlat_length (rows : List (List ℝ))
    (h : ∀ row ∈ rows, row.length = 9) :
    (rows.flatMap (fun row => (row.drop 6).take 2)).length = 2 * rows.length := by
  induction rows with
  | nil => simp
  | cons x t ih =>
    have hx := h x (List.mem_cons_self x t)
    have ht := ih (fun r hr => h r (List.mem_cons_of_mem x hr))
    simp only [List.flatMap_cons, List.length_append, ht, List.length_take,
      List.length_drop, hx, List.length_cons]
    omega

/-- C9 (amended).  `render_rays` performs no trailing-dimension validation:
every batch whose records have width 9 — malformed, since the data model
allows only 8 (no view directions) or 11 (with them) — is accepted without
any error and processed into the sampling stage, with columns 6-7 read as
the bounds and the last three columns (overlapping the bounds) read as view
directions.  Only widths whose bounds slice cannot be reshaped or broadcast
(certain widths below 8) can trigger a later shape error. -/
theorem c9_width_nine_accepted (rows : List (List ℝ)) (S : ℕ)
    (h9 : ∀ row ∈ rows, row.length = 9) (_hne : rows ≠ []) :
    (parseAndSample rows S).isOk = true := by
  have hb : (rows.flatMap (fun row => (row.drop 6).take 2)).length =
      2 * rows.length := boundsFlat_length rows h9
  simp only [parseAndSample]
  rw [if_neg (show ¬ ((rows.flatMap (fun row => (row.drop 6).take 2)).length % 2 ≠ 0) by
    rw [hb]; omega)]
  rw [if_pos (Or.inl (show (rows.flatMap (fun row => (row.drop 6).take 2)).length / 2 =
    rows.length by rw [hb]; omega))]
  rfl

/-- Witness for C9 (amended): a concrete two-row batch of width 9. -/
theorem c9_width_nine_accepted_witness :
    (∀ row ∈ ([[0, 0, 0, 1, 0, 0, 0, 1, 5], [1, 1, 1, 0, 1, 0, 2, 3, 7]] :
      List (List ℝ)), row.length = 9) ∧
    ([[0, 0, 0, 1, 0, 0, 0, 1, 5], [1, 1, 1, 0, 1, 0, 2, 3, 7]] :
      List (List ℝ)) ≠ [] ∧
    (parseAndSample [[0, 0, 0, 1, 0, 0, 0, 1, 5], [1, 1, 1, 0, 1, 0, 2, 3, 7]]
      4).isOk = true := by
  have h9 : ∀ row ∈ ([[0, 0, 0, 1, 0, 0, 0, 1, 5], [1, 1, 1, 0, 1, 0, 2, 3, 7]] :
      List (List ℝ)), row.length = 9 := by
    intro row hr
    rcases List.mem_cons.mp hr with rfl | hr2
    · rfl
    · rcases List.mem_cons.mp hr2 with rfl | hr3
      · rfl
      · simp at hr3
  exact ⟨h9, by simp,
    c9_width_nine_accepted [[0, 0, 0, 1, 0, 0, 0, 1, 5], [1, 1, 1, 0, 1, 0, 2, 3, 7]]
      4 h9 (by simp)⟩

/-- Counterexample to C9 as stated: a single width-9 ray record (wrong
trailing dimension: neither 8 nor 11) is parsed and sampled without any
error: the bounds come from columns 6-7 and the view directions from the
overlapping last three columns. -/
theorem c9_no_failfast_counterexample :
    parseAndSample [[0, 0, 0, 1, 0, 0, 0, 1, 5]] 4 =
      Except.ok ([zValsBase false 0 1 4], some [[0, 1, 5]]) := rfl
